import Mathlib

/-!
Verification of the chunking-and-summarization pipeline.

The program is modelled by a shallow embedding: Python strings become
`List Char`, the chunker `chunk_text`, the backend invoker
`summarize_with_ollama` and the orchestrators `summarize` (CLI) and
`gui_summarize` (GUI, with progress callback) become Lean functions that
mirror the Python control flow line by line.  The external `ollama`
process is abstracted as a function from (model, prompt) to a process
result carrying both captured streams and the exit status.
-/

namespace Summarizer

/-- Strings are modelled as lists of characters. -/
abbrev Str := List Char

/-- Embedding of Python `text.split("\n")`: split a string at every
newline character.  On the empty string this yields `[[]]`, one empty
piece, exactly as Python's split of the empty string yields a list
holding one empty string. -/
def splitNl : Str → List Str
  | [] => [[]]
  | c :: cs =>
    if c = '\n' then [] :: splitNl cs
    else (c :: (splitNl cs).headI) :: (splitNl cs).tail

/-- Embedding of Python joining a list of strings with a newline. -/
def joinNl : List Str → Str
  | [] => []
  | [l] => l
  | l :: l' :: ls => l ++ '\n' :: joinNl (l' :: ls)

/-- Sum of the lengths of a list of lines, the quantity tracked by the
chunker's `count` variable (newline separators are not counted). -/
def sumLen (ls : List Str) : Nat := (ls.map List.length).sum

/- ### Basic facts about splitting and joining -/

theorem splitNl_ne_nil (s : Str) : splitNl s ≠ [] := by
  cases s with
  | nil => simp [splitNl]
  | cons c cs =>
    by_cases hc : c = '\n' <;> simp [splitNl, hc]

theorem joinNl_cons_of_ne (x : Str) (L : List Str) (h : L ≠ []) :
    joinNl (x :: L) = x ++ '\n' :: joinNl L := by
  cases L with
  | nil => exact absurd rfl h
  | cons y ys => rfl

theorem nl_not_mem_of_mem_splitNl (s : Str) (l : Str) (h : l ∈ splitNl s) :
    ('\n' : Char) ∉ l := by
  induction s generalizing l with
  | nil =>
    simp [splitNl] at h
    simp [h]
  | cons c cs ih =>
    rcases hs : splitNl cs with _ | ⟨m, ms⟩
    · exact absurd hs (splitNl_ne_nil cs)
    · have ihm : ∀ x ∈ m :: ms, ('\n' : Char) ∉ x := fun x hx => ih x (hs.symm ▸ hx)
      by_cases hc : c = '\n'
      · simp only [splitNl, hs, if_pos hc] at h
        rcases List.mem_cons.mp h with h1 | h1
        · simp [h1]
        · exact ihm l h1
      · simp only [splitNl, hs, if_neg hc, List.headI, List.tail_cons] at h
        rcases List.mem_cons.mp h with h1 | h1
        · subst h1
          intro hmem
          rcases List.mem_cons.mp hmem with h2 | h2
          · exact hc h2.symm
          · exact ihm m (List.mem_cons_self m ms) h2
        · exact ihm l (List.mem_cons_of_mem m h1)

theorem joinNl_splitNl (s : Str) : joinNl (splitNl s) = s := by
  induction s with
  | nil => rfl
  | cons c cs ih =>
    rcases hs : splitNl cs with _ | ⟨l, ls⟩
    · exact absurd hs (splitNl_ne_nil cs)
    · rw [hs] at ih
      by_cases hc : c = '\n'
      · subst hc
        have hsp : splitNl ('\n' :: cs) = [] :: l :: ls := by simp [splitNl, hs]
        rw [hsp, joinNl_cons_of_ne _ _ (by simp), ih]
        rfl
      · simp only [splitNl, hs, if_neg hc, List.headI, List.tail_cons]
        cases ls with
        | nil =>
          simp only [joinNl] at ih ⊢
          rw [ih]
        | cons l' ls' =>
          simp only [joinNl] at ih ⊢
          rw [← ih]
          simp

theorem splitNl_of_not_mem (l : Str) (h : ('\n' : Char) ∉ l) :
    splitNl l = [l] := by
  induction l with
  | nil => rfl
  | cons c cs ih =>
    have hc : c ≠ '\n' := fun hcc => h (hcc ▸ List.mem_cons_self c cs)
    have hcs : ('\n' : Char) ∉ cs := fun hm => h (List.mem_cons_of_mem c hm)
    simp [splitNl, ih hcs, hc]

theorem splitNl_append_nl (l t : Str) (h : ('\n' : Char) ∉ l) :
    splitNl (l ++ '\n' :: t) = l :: splitNl t := by
  induction l with
  | nil => simp [splitNl]
  | cons c cs ih =>
    have hc : c ≠ '\n' := fun hcc => h (hcc ▸ List.mem_cons_self c cs)
    have hcs : ('\n' : Char) ∉ cs := fun hm => h (List.mem_cons_of_mem c hm)
    simp [splitNl, ih hcs, hc]

theorem splitNl_joinNl (rs : List Str) (hne : rs ≠ [])
    (hnl : ∀ l ∈ rs, ('\n' : Char) ∉ l) :
    splitNl (joinNl rs) = rs := by
  induction rs with
  | nil => exact absurd rfl hne
  | cons l ls ih =>
    cases ls with
    | nil =>
      simp only [joinNl]
      exact splitNl_of_not_mem l (hnl l (List.mem_cons_self l []))
    | cons l' ls' =>
      simp only [joinNl]
      rw [splitNl_append_nl l (joinNl (l' :: ls')) (hnl l (List.mem_cons_self l _))]
      rw [ih (by simp) (fun m hm => hnl m (List.mem_cons_of_mem l hm))]

theorem joinNl_append (a b : List Str) (ha : a ≠ []) (hb : b ≠ []) :
    joinNl (a ++ b) = joinNl a ++ '\n' :: joinNl b := by
  induction a with
  | nil => exact absurd rfl ha
  | cons x a' ih =>
    cases a' with
    | nil =>
      rw [List.singleton_append, joinNl_cons_of_ne x b hb]
      rfl
    | cons x' a'' =>
      have ih' := ih (by simp)
      rw [List.cons_append, joinNl_cons_of_ne x ((x' :: a'') ++ b) (by simp),
        joinNl_cons_of_ne x (x' :: a'') (by simp), ih']
      simp

theorem joinNl_map_join (rs : List (List Str)) (h : ∀ r ∈ rs, r ≠ []) :
    joinNl (rs.map joinNl) = joinNl rs.flatten := by
  induction rs with
  | nil => rfl
  | cons r rest ih =>
    cases rest with
    | nil => simp [joinNl]
    | cons r' rest' =>
      have hr : r ≠ [] := h r (List.mem_cons_self r _)
      have hr' : r' ≠ [] := h r' (List.mem_cons_of_mem r (List.mem_cons_self r' _))
      have hjoin : (r' :: rest').flatten ≠ [] := by
        cases r' with
        | nil => exact absurd rfl hr'
        | cons y ys => simp
      have ihr : joinNl ((r' :: rest').map joinNl) = joinNl (r' :: rest').flatten :=
        ih (fun m hm => h m (List.mem_cons_of_mem r hm))
      calc joinNl ((r :: r' :: rest').map joinNl)
          = joinNl r ++ '\n' :: joinNl ((r' :: rest').map joinNl) := by
            simp only [List.map, joinNl]
        _ = joinNl r ++ '\n' :: joinNl (r' :: rest').flatten := by rw [ihr]
        _ = joinNl (r ++ (r' :: rest').flatten) := (joinNl_append r _ hr hjoin).symm
        _ = joinNl ((r :: r' :: rest').flatten) := by simp

theorem sumLen_append (a b : List Str) : sumLen (a ++ b) = sumLen a + sumLen b := by
  simp [sumLen]

/- ### The chunker -/

/-- The mutable state of the loop inside `chunk_text`: the closed chunks
(each kept as its run of lines), the currently accumulating run
(`current`), and its character count (`count`). -/
structure ChunkSt where
  chunks : List (List Str)
  current : List Str
  count : Nat
deriving DecidableEq

/-- One iteration of the loop body of `chunk_text` for paragraph `p`:
close the running chunk when `count + len(p) > max_chars` and `current`
is non-empty, else append `p` to the running chunk. -/
def chunkStep (budget : Nat) (st : ChunkSt) (p : Str) : ChunkSt :=
  if budget < st.count + p.length ∧ st.current ≠ [] then
    ⟨st.chunks ++ [st.current], [p], p.length⟩
  else
    ⟨st.chunks, st.current ++ [p], st.count + p.length⟩

/-- The chunker at the level of line runs: fold the loop body over the
paragraph list, then close the final non-empty run, exactly as the
Python loop followed by the trailing `if current` append. -/
def chunkRuns (budget : Nat) (paras : List Str) : List (List Str) :=
  let st := paras.foldl (chunkStep budget) ⟨[], [], 0⟩
  if st.current ≠ [] then st.chunks ++ [st.current] else st.chunks

/-- Embedding of `chunk_text(text, max_chars)`: split into paragraphs at
newlines, pack them by length, and join each packed run with newlines. -/
def chunk_text (text : Str) (budget : Nat) : List Str :=
  (chunkRuns budget (splitNl text)).map joinNl

/-- The default `max_chars` argument of `chunk_text`, the budget used by
the orchestrators. -/
def defaultBudget : Nat := 20000

/-- Invariant of the chunker loop after consuming the paragraphs `done`:
the closed chunks followed by the running chunk cover `done` exactly and
in order; `count` caches the running chunk's line-length sum; every
closed chunk is non-empty; every closed chunk and the running chunk
either respects the budget (sum of line lengths) or is a single
paragraph. -/
def ChunkInv (budget : Nat) (done : List Str) (st : ChunkSt) : Prop :=
  st.chunks.flatten ++ st.current = done ∧
  st.count = sumLen st.current ∧
  (∀ r ∈ st.chunks, r ≠ []) ∧
  (∀ r ∈ st.chunks, sumLen r ≤ budget ∨ ∃ p, r = [p]) ∧
  (st.current ≠ [] → sumLen st.current ≤ budget ∨ ∃ p, st.current = [p])

theorem chunkStep_inv (budget : Nat) (done : List Str) (st : ChunkSt) (p : Str)
    (h : ChunkInv budget done st) :
    ChunkInv budget (done ++ [p]) (chunkStep budget st p) := by
  obtain ⟨hcov, hcnt, hne, hbud, hcur⟩ := h
  unfold chunkStep
  by_cases hif : budget < st.count + p.length ∧ st.current ≠ []
  · rw [if_pos hif]
    refine ⟨?_, ?_, ?_, ?_, ?_⟩
    · simp only [List.flatten_append, List.flatten_cons, List.flatten_nil,
        List.append_nil]
      rw [hcov]
    · simp [sumLen]
    · intro r hr
      rcases List.mem_append.mp hr with h1 | h1
      · exact hne r h1
      · rw [List.mem_singleton.mp h1]
        exact hif.2
    · intro r hr
      rcases List.mem_append.mp hr with h1 | h1
      · exact hbud r h1
      · rw [List.mem_singleton.mp h1]
        exact hcur hif.2
    · intro _
      exact Or.inr ⟨p, rfl⟩
  · rw [if_neg hif]
    refine ⟨?_, ?_, ?_, ?_, ?_⟩
    · rw [← List.append_assoc, hcov]
    · rw [sumLen_append, hcnt]
      simp [sumLen]
    · exact hne
    · exact hbud
    · intro _
      by_cases hc : st.current = []
      · exact Or.inr ⟨p, by simp [hc]⟩
      · have hle : st.count + p.length ≤ budget := by
          by_contra hgt
          exact hif ⟨Nat.lt_of_not_le hgt, hc⟩
        left
        rw [sumLen_append, ← hcnt]
        simpa [sumLen] using hle

theorem foldl_chunkStep_inv (budget : Nat) (paras : List Str) :
    ∀ (done : List Str) (st : ChunkSt), ChunkInv budget done st →
      ChunkInv budget (done ++ paras) (paras.foldl (chunkStep budget) st) := by
  induction paras with
  | nil => intro done st h; simpa using h
  | cons p ps ih =>
    intro done st h
    have h1 := chunkStep_inv budget done st p h
    have h2 := ih (done ++ [p]) (chunkStep budget st p) h1
    simpa using h2

/-- The runs produced by the chunker cover the paragraph list exactly
and in order, every run is non-empty, and every run respects the budget
(as a sum of line lengths) or is a single paragraph. -/
theorem chunkRuns_spec (budget : Nat) (paras : List Str) :
    (chunkRuns budget paras).flatten = paras ∧
    (∀ r ∈ chunkRuns budget paras, r ≠ []) ∧
    (∀ r ∈ chunkRuns budget paras, sumLen r ≤ budget ∨ ∃ p, r = [p]) := by
  have h0 : ChunkInv budget [] ⟨[], [], 0⟩ := by
    refine ⟨by simp, by simp [sumLen], by simp, by simp, by simp⟩
  have h := foldl_chunkStep_inv budget paras [] ⟨[], [], 0⟩ h0
  rw [List.nil_append] at h
  obtain ⟨hcov, _, hne, hbud, hcur⟩ := h
  unfold chunkRuns
  by_cases hc : (paras.foldl (chunkStep budget) ⟨[], [], 0⟩).current = []
  · rw [if_neg (by simpa using hc)]
    rw [hc, List.append_nil] at hcov
    exact ⟨hcov, hne, hbud⟩
  · rw [if_pos hc]
    refine ⟨?_, ?_, ?_⟩
    · simpa using hcov
    · intro r hr
      rcases List.mem_append.mp hr with h1 | h1
      · exact hne r h1
      · rw [List.mem_singleton.mp h1]
        exact hc
    · intro r hr
      rcases List.mem_append.mp hr with h1 | h1
      · exact hbud r h1
      · rw [List.mem_singleton.mp h1]
        exact hcur hc

theorem chunkRuns_ne_nil (budget : Nat) (paras : List Str) (h : paras ≠ []) :
    chunkRuns budget paras ≠ [] := by
  intro hnil
  have hcov := (chunkRuns_spec budget paras).1
  rw [hnil] at hcov
  exact h hcov.symm

theorem chunk_text_ne_nil (text : Str) (budget : Nat) :
    chunk_text text budget ≠ [] := by
  unfold chunk_text
  intro hnil
  exact chunkRuns_ne_nil budget (splitNl text) (splitNl_ne_nil text)
    (List.map_eq_nil_iff.mp hnil)

/- ### The backend invoker -/

/-- The whitespace characters removed by Python's default `str.strip()`
(ASCII fragment). -/
def isSpaceChar (c : Char) : Bool :=
  c = ' ' || c = '\t' || c = '\n' || c = '\r' || c = '\x0B' || c = '\x0C'

/-- Embedding of Python `s.strip()`: drop whitespace from both ends. -/
def strip (s : Str) : Str :=
  ((s.dropWhile isSpaceChar).reverse.dropWhile isSpaceChar).reverse

/-- The outcome of running the external backend process: both captured
output streams, already decoded, plus the exit status.  The exit status
is carried so that its (non-)use by the invoker can be stated. -/
structure ProcResult where
  stdout : Str
  stderr : Str
  exitCode : Int
deriving DecidableEq

/-- First half of the fixed prompt template of `summarize_with_ollama`. -/
def promptHead : Str :=
  ("The following is the summary content：\n").data

/-- Second half of the fixed prompt template, appended after the text. -/
def promptTail : Str :=
  ("\n\nPlease extract the key points of this passage in English and output a concise summary：").data

/-- The fully rendered prompt embedding the segment verbatim. -/
def buildPrompt (text : Str) : Str := promptHead ++ text ++ promptTail

/-- The result-selection line of `summarize_with_ollama`: the Python
conditional expression tests the truthiness of the raw (untrimmed)
primary stream and strips only afterwards. -/
def selectOutput (proc : ProcResult) : Str :=
  if proc.stdout ≠ [] then strip proc.stdout else strip proc.stderr

/-- Embedding of `summarize_with_ollama(text, model)`: build the prompt,
run the external process (abstracted as `run`, taking the model name and
the prompt), and select the output from the captured streams. -/
def summarize_with_ollama (run : Str → Str → ProcResult) (model text : Str) : Str :=
  selectOutput (run model (buildPrompt text))

/- ### The orchestrators -/

/-- The separator joining partial summaries: one blank line. -/
def sepBlank : Str := '\n' :: '\n' :: []

/-- Embedding of Python joining a list of strings with a blank line. -/
def joinBlank : List Str → Str
  | [] => []
  | [s] => s
  | s :: s' :: rest => s ++ sepBlank ++ joinBlank (s' :: rest)

/-- The accumulation loop of the CLI `summarize`: one backend call per
chunk, appending each partial summary to the accumulator in order. -/
def summarizeLoop (invoke : Str → Str) : List Str → List Str → List Str
  | acc, [] => acc
  | acc, c :: cs => summarizeLoop invoke (acc ++ [invoke c]) cs

/-- Embedding of the CLI `summarize(text, model)` with the backend
invocation abstracted as `invoke`: chunk with the default budget, call
the backend once per chunk in order, join with a blank line. -/
def summarize (invoke : Str → Str) (text : Str) : Str :=
  joinBlank (summarizeLoop invoke [] (chunk_text text defaultBudget))

/-- The CLI `summarize` with its backend instantiated to
`summarize_with_ollama` over a process model `run`. -/
def summarizeCLI (run : Str → Str → ProcResult) (model text : Str) : Str :=
  summarize (summarize_with_ollama run model) text

/-- The message handed to the GUI progress callback for chunk `idx` of
`total`, as formatted by the f-string in `gui.summarize`. -/
def progressMsg (idx total : Nat) : Str :=
  ("Summarizing part " ++ Nat.repr idx ++ "/" ++ Nat.repr total ++ "...").data

/-- The expected sequence of progress messages: `n` messages starting at
index `idx`, each carrying the constant `total`. -/
def progressTrace (total : Nat) : Nat → Nat → List Str
  | _, 0 => []
  | idx, n + 1 => progressMsg idx total :: progressTrace total (idx + 1) n

/-- The loop of `gui.summarize` instrumented with the trace of callback
invocations: each iteration first records the progress message for the
current 1-based index, then performs the backend call. -/
def guiTraceLoop (invoke : Str → Str) (total : Nat) :
    Nat → List Str → List Str → List Str → List Str × List Str
  | _, trace, acc, [] => (trace, acc)
  | idx, trace, acc, c :: cs =>
      guiTraceLoop invoke total (idx + 1) (trace ++ [progressMsg idx total])
        (acc ++ [invoke c]) cs

/-- `gui.summarize` with a (non-raising) callback, returning the list of
messages passed to the callback together with the final summary. -/
def gui_summarize_trace (invoke : Str → Str) (text : Str) : List Str × Str :=
  let res := guiTraceLoop invoke (chunk_text text defaultBudget).length 1 [] []
    (chunk_text text defaultBudget)
  (res.1, joinBlank res.2)

/-- The loop of `gui.summarize` with a callback that may raise: the
callback runs before the chunk's backend call and an exception aborts
the loop, since the Python code wraps the call in no handler. -/
def guiLoopE {ε : Type} (invoke : Str → Str) (cb : Str → Except ε Unit) (total : Nat) :
    Nat → List Str → List Str → Except ε (List Str)
  | _, acc, [] => Except.ok acc
  | idx, acc, c :: cs =>
      match cb (progressMsg idx total) with
      | Except.error e => Except.error e
      | Except.ok _ => guiLoopE invoke cb total (idx + 1) (acc ++ [invoke c]) cs

/-- Embedding of `gui.summarize(text, model, update_callback)`: when a
callback is supplied it is invoked once per chunk before the backend
call; an exception it raises propagates out of the function. -/
def gui_summarize {ε : Type} (invoke : Str → Str) (cb : Option (Str → Except ε Unit))
    (text : Str) : Except ε Str :=
  match cb with
  | none => Except.ok (joinBlank ((chunk_text text defaultBudget).map invoke))
  | some f =>
      match guiLoopE invoke f (chunk_text text defaultBudget).length 1 []
          (chunk_text text defaultBudget) with
      | Except.error e => Except.error e
      | Except.ok summ => Except.ok (joinBlank summ)

/- ### Supporting lemmas about the orchestrators -/

theorem summarizeLoop_eq (invoke : Str → Str) (cs : List Str) :
    ∀ acc : List Str, summarizeLoop invoke acc cs = acc ++ cs.map invoke := by
  induction cs with
  | nil => intro acc; simp [summarizeLoop]
  | cons c cs ih =>
    intro acc
    rw [summarizeLoop, ih]
    simp

theorem guiTraceLoop_eq (invoke : Str → Str) (total : Nat) (cs : List Str) :
    ∀ (idx : Nat) (trace acc : List Str),
      guiTraceLoop invoke total idx trace acc cs =
        (trace ++ progressTrace total idx cs.length, acc ++ cs.map invoke) := by
  induction cs with
  | nil => intro idx trace acc; simp [guiTraceLoop, progressTrace]
  | cons c cs ih =>
    intro idx trace acc
    rw [guiTraceLoop, ih]
    simp [progressTrace]

theorem progressTrace_eq_range (total n : Nat) :
    ∀ idx : Nat,
      progressTrace total idx n = (List.range n).map (fun i => progressMsg (idx + i) total) := by
  induction n with
  | zero => intro idx; rfl
  | succ n ih =>
    intro idx
    rw [progressTrace, ih (idx + 1), List.range_succ_eq_map, List.map_cons, List.map_map]
    congr 1
    refine List.map_congr_left (fun i _ => ?_)
    simp only [Function.comp_apply]
    congr 1
    omega

/-- If the callback succeeds on every message with index below `k` and
raises on the message with index `k`, the loop of `gui.summarize`
stops at the k-th iteration, before that chunk's backend call, and
returns the callback's error. -/
theorem guiLoopE_error {ε : Type} (invoke : Str → Str) (cb : Str → Except ε Unit)
    (total k : Nat) (e : ε)
    (herr : cb (progressMsg k total) = Except.error e) :
    ∀ (cs : List Str) (idx : Nat) (acc : List Str),
      (∀ i, idx ≤ i → i < k → cb (progressMsg i total) = Except.ok ()) →
      idx ≤ k → k < idx + cs.length →
      guiLoopE invoke cb total idx acc cs = Except.error e := by
  intro cs
  induction cs with
  | nil =>
    intro idx acc _ hik hkl
    simp only [List.length_nil, Nat.add_zero] at hkl
    omega
  | cons c cs ih =>
    intro idx acc hok hik hkl
    by_cases hek : idx = k
    · subst hek
      simp only [guiLoopE, herr]
    · have hlt : idx < k := lt_of_le_of_ne hik hek
      simp only [guiLoopE, hok idx le_rfl hlt]
      refine ih (idx + 1) (acc ++ [invoke c]) (fun i h1 h2 => hok i (by omega) h2)
        (by omega) ?_
      simp only [List.length_cons] at hkl
      omega

/-- A 20001-character line, longer than the default budget. -/
def lineA : Str := List.replicate 20001 'a'

/-- A second 20001-character line. -/
def lineB : Str := List.replicate 20001 'b'

/-- A text that the default budget splits into exactly two segments:
two lines, each longer than the budget on its own. -/
def twoChunkText : Str := lineA ++ '\n' :: lineB

theorem chunk_text_twoChunkText :
    chunk_text twoChunkText defaultBudget = [lineA, lineB] := by
  have hA : ('\n' : Char) ∉ lineA := by
    unfold lineA
    intro hmem
    exact absurd (List.eq_of_mem_replicate hmem) (by decide)
  have hB : ('\n' : Char) ∉ lineB := by
    unfold lineB
    intro hmem
    exact absurd (List.eq_of_mem_replicate hmem) (by decide)
  have hsplit : splitNl twoChunkText = [lineA, lineB] := by
    rw [twoChunkText, splitNl_append_nl _ _ hA, splitNl_of_not_mem _ hB]
  have hlenA : lineA.length = 20001 := by
    unfold lineA
    rw [List.length_replicate]
  have hlenB : lineB.length = 20001 := by
    unfold lineB
    rw [List.length_replicate]
  unfold chunk_text chunkRuns
  rw [hsplit]
  simp [List.foldl, chunkStep, hlenA, hlenB, defaultBudget, joinNl]

/-- A callback raising exactly on the second of two progress messages. -/
def raiseOnSecond : Str → Except Unit Unit :=
  fun m => if m = progressMsg 2 2 then Except.error () else Except.ok ()

/- ### Claims -/

/-- C1, counterexample: with budget 2 and text of three one-character
lines, the chunker closes the segment holding the first two lines; that
segment has character length 3 (the embedded newline counts), exceeds
the budget, and is not a single original line. -/
theorem budget_respect_counterexample :
    ("a\nb").data ∈ chunk_text (("a\nb\nc").data) 2 ∧
    ¬ ((("a\nb").data).length ≤ 2 ∨
      ((("a\nb").data) ∈ splitNl (("a\nb\nc").data) ∧ 2 < (("a\nb").data).length)) := by
  refine ⟨by decide, by decide⟩

/-- C1, amended: every segment produced by `chunk_text` has the sum of
its lines' lengths (character length not counting the newline
separators reinserted between lines) at most the budget, unless the
segment is a single original line whose own length exceeds the budget. -/
theorem budget_respect_amended (text : Str) (budget : Nat) (seg : Str)
    (h : seg ∈ chunk_text text budget) :
    sumLen (splitNl seg) ≤ budget ∨ (seg ∈ splitNl text ∧ budget < seg.length) := by
  obtain ⟨hcov, hne, hbud⟩ := chunkRuns_spec budget (splitNl text)
  unfold chunk_text at h
  rcases List.mem_map.mp h with ⟨r, hr, hseg⟩
  have hrne : r ≠ [] := hne r hr
  have hrnl : ∀ l ∈ r, ('\n' : Char) ∉ l := by
    intro l hl
    apply nl_not_mem_of_mem_splitNl text
    rw [← hcov]
    exact List.mem_flatten.mpr ⟨r, hr, hl⟩
  have hsplit : splitNl seg = r := by
    rw [← hseg]
    exact splitNl_joinNl r hrne hrnl
  rcases hbud r hr with h1 | ⟨p, hp⟩
  · left
    rw [hsplit]
    exact h1
  · subst hp
    by_cases hle : p.length ≤ budget
    · left
      rw [hsplit]
      simpa [sumLen] using hle
    · right
      have hps : p = seg := hseg
      have hpmem : p ∈ splitNl text := by
        rw [← hcov]
        exact List.mem_flatten.mpr ⟨[p], hr, List.mem_singleton_self p⟩
      refine ⟨hps ▸ hpmem, ?_⟩
      rw [← hps]
      exact Nat.lt_of_not_le hle

/-- C1, witness for the amended theorem at text `"ab\nc"`, budget 3. -/
theorem budget_respect_amended_witness :
    sumLen (splitNl (("ab\nc").data)) ≤ 3 ∨
      ((("ab\nc").data) ∈ splitNl (("ab\nc").data) ∧ 3 < (("ab\nc").data).length) :=
  budget_respect_amended (("ab\nc").data) 3 (("ab\nc").data) (by decide)

/-- C2: for every text and budget, joining the chunker's segments with a
newline reproduces the text exactly; the underlying line runs
concatenate, in order, to the original line list, and each segment is
the newline-join of its run. -/
theorem chunk_text_coverage (text : Str) (budget : Nat) :
    joinNl (chunk_text text budget) = text ∧
    (chunkRuns budget (splitNl text)).flatten = splitNl text ∧
    chunk_text text budget = (chunkRuns budget (splitNl text)).map joinNl := by
  obtain ⟨hcov, hne, _⟩ := chunkRuns_spec budget (splitNl text)
  refine ⟨?_, hcov, rfl⟩
  unfold chunk_text
  rw [joinNl_map_join _ hne, hcov, joinNl_splitNl]

/-- C3, counterexample: on the empty string the chunker returns the
one-element sequence holding the empty segment, not the empty
sequence, because splitting the empty string yields one empty line. -/
theorem empty_chunk_counterexample :
    chunk_text [] 5 = [[]] ∧ chunk_text [] 5 ≠ [] := by
  refine ⟨by decide, by decide⟩

/-- C3, amended: `chunk_text` never returns the empty sequence; on the
empty string it returns the one-element sequence holding the empty
segment. -/
theorem chunk_text_nonempty (text : Str) (budget : Nat) :
    chunk_text text budget ≠ [] ∧ (text = [] → chunk_text text budget = [[]]) := by
  refine ⟨chunk_text_ne_nil text budget, ?_⟩
  intro h
  subst h
  simp [chunk_text, chunkRuns, chunkStep, splitNl, joinNl]

/-- C3, witness for the amended theorem at the empty string, budget 7. -/
theorem chunk_text_nonempty_witness :
    chunk_text [] 7 ≠ [] ∧ chunk_text [] 7 = [[]] :=
  ⟨(chunk_text_nonempty [] 7).1, (chunk_text_nonempty [] 7).2 rfl⟩

/-- C4, counterexample: on the empty string `summarize` does not return
the empty string and does not skip the backend and the callback: the
single empty segment drives one backend call (here returning `"X"`,
which becomes the result) and one progress callback invocation. -/
theorem empty_input_counterexample :
    summarize (fun _ => ("X").data) [] = ("X").data ∧
    summarize (fun _ => ("X").data) [] ≠ [] ∧
    (gui_summarize_trace (fun _ => ("X").data) []).1 = [progressMsg 1 1] := by
  refine ⟨rfl, by decide, rfl⟩

/-- C4, amended: on the empty string the segment sequence is the single
empty segment, `summarize` returns the backend's output for the empty
segment (one backend call), and the progress callback is invoked exactly
once, with current index 1 of total 1. -/
theorem empty_input_amended (invoke : Str → Str) :
    chunk_text [] defaultBudget = [[]] ∧
    summarize invoke [] = invoke [] ∧
    (gui_summarize_trace invoke []).1 = [progressMsg 1 1] := by
  exact ⟨rfl, rfl, rfl⟩

/-- C5, counterexample: a whitespace-only primary stream is truthy in
Python, so the invoker returns its trimmed (empty) content instead of
falling back to the trimmed diagnostic stream. -/
theorem result_selection_counterexample :
    selectOutput ⟨(" ").data, ("err").data, 0⟩ = [] ∧
    strip (("err").data) = ("err").data ∧
    selectOutput ⟨(" ").data, ("err").data, 0⟩ ≠ strip (("err").data) := by
  refine ⟨by decide, by decide, by decide⟩

/-- C5, amended: the invoker returns the trimmed primary-stream output
whenever the raw (untrimmed) primary stream is non-empty — in
particular whenever the trimmed primary output is non-empty — and
returns the trimmed diagnostic-stream output only when the primary
stream is entirely empty; a whitespace-only primary stream therefore
yields the empty string, not the diagnostic stream. -/
theorem selectOutput_policy (proc : ProcResult) :
    (strip proc.stdout ≠ [] → selectOutput proc = strip proc.stdout) ∧
    (proc.stdout = [] → selectOutput proc = strip proc.stderr) ∧
    (proc.stdout ≠ [] → selectOutput proc = strip proc.stdout) := by
  refine ⟨?_, ?_, ?_⟩
  · intro h
    have hs : proc.stdout ≠ [] := by
      intro hnil
      rw [hnil] at h
      exact h rfl
    unfold selectOutput
    rw [if_pos hs]
  · intro h
    unfold selectOutput
    rw [if_neg (by simp [h])]
  · intro h
    unfold selectOutput
    rw [if_pos h]

/-- C5, witness: the three cases of the selection policy at concrete
streams — non-blank primary, empty primary, whitespace-only primary. -/
theorem selectOutput_policy_witness :
    selectOutput ⟨(" a ").data, ("e").data, 0⟩ = ("a").data ∧
    selectOutput ⟨[], (" e ").data, 0⟩ = ("e").data ∧
    selectOutput ⟨(" ").data, ("e").data, 1⟩ = [] := by
  refine ⟨?_, ?_, ?_⟩
  · have h := (selectOutput_policy ⟨(" a ").data, ("e").data, 0⟩).1 (by decide)
    rw [h]
    decide
  · have h := (selectOutput_policy ⟨[], (" e ").data, 0⟩).2.1 rfl
    rw [h]
    decide
  · have h := (selectOutput_policy ⟨(" ").data, ("e").data, 1⟩).2.2 (by decide)
    rw [h]
    decide

/-- C6, counterexample: a callback that raises makes `gui.summarize`
propagate the exception instead of completing: on input `"a"` the run
aborts with the error while the same run with no callback returns the
final summary. -/
theorem callback_exception_counterexample :
    @gui_summarize Unit (fun s => s) (some (fun _ => Except.error ())) (("a").data) =
      Except.error () ∧
    @gui_summarize Unit (fun s => s) none (("a").data) = Except.ok (("a").data) ∧
    (Except.error () : Except Unit Str) ≠ Except.ok (("a").data) := by
  refine ⟨rfl, rfl, fun h => Except.noConfusion h⟩

/-- C6, amended: an exception raised by the progress callback on any
invocation is not caught: if the callback succeeds on the first `k - 1`
messages and raises on the k-th (for any `k` between 1 and the number
of segments), the exception propagates out of `gui.summarize` at that
invocation, aborting the pipeline run before the k-th segment's backend
call. -/
theorem callback_exception_propagates {ε : Type} (invoke : Str → Str)
    (cb : Str → Except ε Unit) (text : Str) (k : Nat) (e : ε)
    (hk1 : 1 ≤ k) (hkN : k ≤ (chunk_text text defaultBudget).length)
    (hok : ∀ i, 1 ≤ i → i < k →
      cb (progressMsg i (chunk_text text defaultBudget).length) = Except.ok ())
    (herr : cb (progressMsg k (chunk_text text defaultBudget).length) = Except.error e) :
    gui_summarize invoke (some cb) text = Except.error e := by
  have hg : gui_summarize invoke (some cb) text =
      match guiLoopE invoke cb (chunk_text text defaultBudget).length 1 []
          (chunk_text text defaultBudget) with
      | Except.error e => Except.error e
      | Except.ok summ => Except.ok (joinBlank summ) := rfl
  rw [hg, guiLoopE_error invoke cb (chunk_text text defaultBudget).length k e herr
    (chunk_text text defaultBudget) 1 [] (fun i h1 h2 => hok i h1 h2) hk1 (by omega)]

/-- C6, witness for the amended theorem: on a two-segment input, a
callback that succeeds on message 1 of 2 and raises on message 2 of 2
makes the pipeline return its error from the second invocation. -/
theorem callback_exception_propagates_witness :
    gui_summarize (fun s => s) (some raiseOnSecond) twoChunkText = Except.error () := by
  refine callback_exception_propagates (fun s => s) raiseOnSecond twoChunkText 2 ()
    (by decide) ?_ ?_ ?_
  · rw [chunk_text_twoChunkText]
    decide
  · intro i h1 h2
    have hi : i = 1 := by omega
    subst hi
    rw [chunk_text_twoChunkText]
    show raiseOnSecond (progressMsg 1 2) = Except.ok ()
    unfold raiseOnSecond
    rw [if_neg (by decide)]
  · rw [chunk_text_twoChunkText]
    show raiseOnSecond (progressMsg 2 2) = Except.error ()
    unfold raiseOnSecond
    rw [if_pos rfl]

/-- C7: the progress callback is invoked exactly once per segment, with
the messages carrying the 1-based indices 1 to N in increasing order and
the constant total N; the accompanying summary is the pipeline's usual
result. -/
theorem progress_monotonicity (invoke : Str → Str) (text : Str) :
    (gui_summarize_trace invoke text).1 =
      (List.range (chunk_text text defaultBudget).length).map
        (fun i => progressMsg (i + 1) (chunk_text text defaultBudget).length) ∧
    (gui_summarize_trace invoke text).1.length = (chunk_text text defaultBudget).length ∧
    (gui_summarize_trace invoke text).2 = summarize invoke text := by
  have h1 : gui_summarize_trace invoke text =
      ((guiTraceLoop invoke (chunk_text text defaultBudget).length 1 [] []
          (chunk_text text defaultBudget)).1,
        joinBlank (guiTraceLoop invoke (chunk_text text defaultBudget).length 1 [] []
          (chunk_text text defaultBudget)).2) := rfl
  rw [h1, guiTraceLoop_eq]
  simp only [List.nil_append]
  refine ⟨?_, ?_, ?_⟩
  · rw [progressTrace_eq_range]
    refine List.map_congr_left (fun i _ => ?_)
    congr 1
    omega
  · rw [progressTrace_eq_range]
    simp
  · unfold summarize
    rw [summarizeLoop_eq]
    simp

/-- C8: `summarize` returns exactly the backend's partial summaries of
the segments, in segment order, joined with one blank line; the i-th
partial summary is the backend's output for the i-th segment. -/
theorem order_preservation (invoke : Str → Str) (text : Str) :
    summarize invoke text = joinBlank ((chunk_text text defaultBudget).map invoke) ∧
    ((chunk_text text defaultBudget).map invoke).length =
      (chunk_text text defaultBudget).length ∧
    ∀ i : Nat, ((chunk_text text defaultBudget).map invoke)[i]? =
      ((chunk_text text defaultBudget)[i]?).map invoke := by
  refine ⟨?_, by simp, fun i => by simp⟩
  unfold summarize
  rw [summarizeLoop_eq]
  simp

/-- C9: a single line (no newline character) whose length exceeds the
budget is returned unsplit as the unique segment. -/
theorem single_line_overflow (text : Str) (budget : Nat)
    (hnl : ('\n' : Char) ∉ text) (hlen : budget < text.length) :
    chunk_text text budget = [text] := by
  unfold chunk_text chunkRuns
  rw [splitNl_of_not_mem text hnl]
  simp [chunkStep, joinNl]

/-- C9, witness at the four-character line `"abcd"` and budget 2. -/
theorem single_line_overflow_witness :
    chunk_text (("abcd").data) 2 = [("abcd").data] :=
  single_line_overflow (("abcd").data) 2 (by decide) (by decide)

/-- C10: the invoker's result depends only on the two captured output
streams: two process behaviours producing identical primary and
diagnostic streams (regardless of their exit statuses) yield the same
returned string. -/
theorem exit_status_independence (run₁ run₂ : Str → Str → ProcResult) (model text : Str)
    (hout : (run₁ model (buildPrompt text)).stdout = (run₂ model (buildPrompt text)).stdout)
    (herr : (run₁ model (buildPrompt text)).stderr = (run₂ model (buildPrompt text)).stderr) :
    summarize_with_ollama run₁ model text = summarize_with_ollama run₂ model text := by
  unfold summarize_with_ollama selectOutput
  rw [hout, herr]

/-- C10, witness: two process models identical except for the exit
status (0 versus 1) give the same invoker result. -/
theorem exit_status_independence_witness :
    summarize_with_ollama (fun _ _ => ⟨("o").data, ("e").data, 0⟩) (("m").data) (("t").data) =
      summarize_with_ollama (fun _ _ => ⟨("o").data, ("e").data, 1⟩) (("m").data) (("t").data) :=
  exit_status_independence (fun _ _ => ⟨("o").data, ("e").data, 0⟩)
    (fun _ _ => ⟨("o").data, ("e").data, 1⟩) (("m").data) (("t").data) rfl rfl

end Summarizer
